import Mathlib

/-!
Verification of the sourmash index layer (`src/sourmash/index/__init__.py`).

Shallow embedding notes.

* Signatures and their sketches are opaque external values in the source; we
  model a signature as a record `Sig` of the sketch parameters the index code
  reads (`ksize`, `moltype`, `scaled`, `num`) plus a fingerprint.  The md5sum
  fingerprint is a 32-digit hex string in the source; all hex strings of that
  fixed length compare lexicographically exactly as the numbers they denote,
  so we model the fingerprint as a natural number `md5`.  `moltype` is likewise
  an opaque label compared only for equality, modelled as a natural number.
* The query's sketch capability (`similarity`, `contained_by`,
  `max_containment`, `count_common`, `len`, `scaled`) is an external
  collaborator; a `QueryOps` record carries one function per call site.
  Scores are Python floats used only through comparisons; we model them as ℚ.
* Python's `list.sort(key=...)` is a stable sort; any stable sort by the same
  key computes the same list, so we model it with `List.insertionSort` under
  the key-induced non-increasing relation (Mathlib's `insertionSort` is
  stable in exactly Python's sense).
* Python's `collections.Counter` is an insertion-ordered dict from keys to
  (possibly negative or zero) integers; we model it as an association list
  `List (ℕ × ℤ)` in insertion order.  `most_common()` is
  `sorted(items, key=value, reverse=True)`, a stable descending sort.
* Fallible code (`raise TypeError` / `ValueError`) is modelled with
  `Except String`.
-/

namespace Sourmash

/-- A signature: the sketch parameters the index layer reads, plus the
fingerprint (`md5sum()`), modelled as explained in the header. -/
structure Sig where
  ksize : ℕ
  moltype : ℕ
  scaled : ℕ
  num : ℕ
  md5 : ℕ
deriving DecidableEq, Repr

instance : Inhabited Sig := ⟨⟨0, 0, 0, 0, 0⟩⟩

/-- The external sketch capability of a fixed query, one field per call site
in the source.  `mhLen` is `len(query.minhash)`; the query's minhash is
truthy iff it is non-empty, i.e. iff `mhLen ≠ 0`.  `scaled = 0` models a
query whose sketch has no scaled policy (fixed-size / `num` sampling). -/
structure QueryOps where
  /-- `len(query.minhash)` -/
  mhLen : ℕ
  /-- `query.minhash.scaled` (0 when the sketch is not scaled) -/
  scaled : ℕ
  /-- `query.similarity(x, downsample=True, ignore_abundance=b)` -/
  similarity : Bool → Sig → ℚ
  /-- `query.contained_by(x, downsample=True)` -/
  contained_by : Sig → ℚ
  /-- `query.max_containment(x, downsample=True)` -/
  max_containment : Sig → ℚ
  /-- `query.minhash.contained_by(ss.minhash, True)` -/
  mh_contained_by : Sig → ℚ
  /-- `query.minhash.count_common(ss.minhash, True)` -/
  mh_count_common : Sig → ℕ
  /-- `a.minhash.count_common(b.minhash, True)` for stored signatures -/
  sig_count_common : Sig → Sig → ℕ

/-- A result triple `(score, ss, location)` as returned by `search`, `gather`
and `counter_gather`. -/
structure SearchResult where
  score : ℚ
  sig : Sig
  source : Option String
deriving DecidableEq, Repr

/-! ### Stable descending sort (model of Python's `list.sort`) -/

/-- `keyGe key a b` means `a` sorts no later than `b` when sorting in
non-increasing key order. -/
abbrev keyGe {α β : Type} [LinearOrder β] (key : α → β) (a b : α) : Prop :=
  key b ≤ key a

instance keyGeTotal {α β : Type} [LinearOrder β] (key : α → β) :
    IsTotal α (keyGe key) :=
  ⟨fun a b => le_total (key b) (key a)⟩

instance keyGeTrans {α β : Type} [LinearOrder β] (key : α → β) :
    IsTrans α (keyGe key) :=
  ⟨fun _ _ _ h1 h2 => le_trans h2 h1⟩

/-- Python's stable sort in non-increasing order of `key` (for
`list.sort(key=...)` with a negated or `reverse=True` key).  Stable sorts by
a fixed key are extensionally unique, so insertion sort is a faithful model. -/
def sortDescBy {α β : Type} [LinearOrder β] (key : α → β) (l : List α) : List α :=
  List.insertionSort (keyGe key) l

theorem sortDescBy_perm {α β : Type} [LinearOrder β] (key : α → β) (l : List α) :
    List.Perm (sortDescBy key l) l :=
  List.perm_insertionSort _ l

theorem sortDescBy_sorted {α β : Type} [LinearOrder β] (key : α → β) (l : List α) :
    List.Sorted (keyGe key) (sortDescBy key l) :=
  List.sorted_insertionSort _ l

theorem mem_sortDescBy {α β : Type} [LinearOrder β] {key : α → β} {l : List α}
    {a : α} : a ∈ sortDescBy key l ↔ a ∈ l :=
  (sortDescBy_perm key l).mem_iff

theorem orderedInsert_filter_key {α β : Type} [LinearOrder β] (key : α → β)
    (x : α) (l : List α) (s : β) :
    (List.orderedInsert (keyGe key) x l).filter (fun a => decide (key a = s)) =
      (if key x = s then [x] else []) ++ l.filter (fun a => decide (key a = s)) := by
  induction l with
  | nil =>
    simp only [List.orderedInsert]
    by_cases h : key x = s <;> simp [h]
  | cons y ys ih =>
    simp only [List.orderedInsert]
    by_cases hxy : keyGe key x y
    · rw [if_pos hxy]
      by_cases hx : key x = s <;> by_cases hy : key y = s <;>
        simp [List.filter_cons, hx, hy]
    · rw [if_neg hxy]
      have hlt : key x < key y := lt_of_not_le hxy
      by_cases hx : key x = s
      · have hy : ¬ key y = s := fun h => absurd (hx ▸ h ▸ hlt) (lt_irrefl _)
        simp [List.filter_cons, hx, hy, ih]
      · by_cases hy : key y = s <;> simp [List.filter_cons, hx, hy, ih]

/-- Stability of the modelled sort: for each key value, the subsequence of
elements carrying that key is preserved verbatim. -/
theorem sortDescBy_filter_key {α β : Type} [LinearOrder β] (key : α → β)
    (l : List α) (s : β) :
    (sortDescBy key l).filter (fun a => decide (key a = s)) =
      l.filter (fun a => decide (key a = s)) := by
  induction l with
  | nil => rfl
  | cons x xs ih =>
    simp only [sortDescBy] at ih
    show (List.orderedInsert (keyGe key) x
        (List.insertionSort (keyGe key) xs)).filter _ = _
    rw [orderedInsert_filter_key]
    by_cases hx : key x = s <;> simp [List.filter_cons, hx, ih]

/-- The head of the stable descending sort is the first element of the input
attaining the maximal key. -/
theorem sortDescBy_head {α β : Type} [LinearOrder β] (key : α → β)
    {l : List α} {hd : α} (h : (sortDescBy key l).head? = some hd) :
    (∀ a ∈ l, key a ≤ key hd) ∧
      (l.filter (fun a => decide (key a = key hd))).head? = some hd := by
  rcases hs : sortDescBy key l with _ | ⟨b, tl⟩
  · rw [hs] at h; exact absurd h (by simp)
  · rw [hs] at h
    simp only [List.head?] at h
    cases h
    have hsorted := sortDescBy_sorted key l
    rw [hs] at hsorted
    have htl : ∀ a ∈ tl, key a ≤ key hd :=
      fun a ha => (List.sorted_cons.mp hsorted).1 a ha
    constructor
    · intro a ha
      have : a ∈ sortDescBy key l := mem_sortDescBy.mpr ha
      rw [hs] at this
      rcases List.mem_cons.mp this with rfl | hmem
      · exact le_refl _
      · exact htl a hmem
    · have hfe := sortDescBy_filter_key key l (key hd)
      rw [hs] at hfe
      rw [← hfe]
      simp [List.filter_cons]

/-! ### `Index.search` (source lines 46-91) -/

/-- The scoring function `query_match` selected by `search` from its flags. -/
def searchScorer (q : QueryOps) (do_containment do_max_containment
    ignore_abundance : Bool) : Sig → ℚ :=
  if do_containment then q.contained_by
  else if do_max_containment then q.max_containment
  else q.similarity ignore_abundance

/-- The `matches` list built by `search`'s scan: one `(score, ss, location)`
triple per enumerated signature whose score is `>= threshold`, in
enumeration order. -/
def searchMatches (f : Sig → ℚ) (t : ℚ) (location : Option String)
    (sigs : List Sig) : List SearchResult :=
  sigs.filterMap fun ss => if t ≤ f ss then some ⟨f ss, ss, location⟩ else none

/-- `Index.search`, the shared base-class algorithm over the backend's
enumeration `sigs` and its `self.location`.  `threshold = none` models the
`threshold=None` default. -/
def searchAlg (q : QueryOps) (sigs : List Sig) (location : Option String)
    (threshold : Option ℚ) (do_containment do_max_containment
    ignore_abundance : Bool) : Except String (List SearchResult) :=
  match threshold with
  | none => .error "search requires threshold"
  | some t =>
    if do_containment && do_max_containment then
      .error "do_containment and do_max_containment cannot both be True"
    else
      .ok (sortDescBy (fun r => r.score)
        (searchMatches (searchScorer q do_containment do_max_containment
          ignore_abundance) t location sigs))

/-! ### `Index.gather` (source lines 93-127) -/

/-- The sort key `(x[0], x[1].md5sum())` used (with `reverse=True`) by
`gather` and `counter_gather`. -/
def gatherKey (r : SearchResult) : ℚ ×ₗ ℕ :=
  toLex (r.score, r.sig.md5)

/-- The `results` list built by `gather`'s scan: signatures with truthy
containment `>= threshold`, in enumeration order. -/
def gatherMatches (q : QueryOps) (location : Option String) (threshold : ℚ)
    (sigs : List Sig) : List SearchResult :=
  sigs.filterMap fun ss =>
    let cont := q.mh_contained_by ss
    if cont ≠ 0 ∧ threshold ≤ cont then some ⟨cont, ss, location⟩ else none

/-- `Index.gather`: the one-shot containment scan.  `threshold_bp` models the
`threshold_bp` kwarg (default `0.0`, and `if threshold_bp:` tests
truthiness, i.e. `≠ 0`). -/
def gatherAlg (q : QueryOps) (sigs : List Sig) (location : Option String)
    (threshold_bp : ℚ) : Except String (List SearchResult) :=
  if q.mhLen = 0 then .ok []
  else if q.scaled = 0 then .error "gather requires scaled signatures"
  else
    let threshold : ℚ :=
      if threshold_bp = 0 then 0
      else (threshold_bp / (q.scaled : ℚ)) / (q.mhLen : ℚ)
    if threshold_bp ≠ 0 ∧ 1 < threshold then .ok []
    else .ok (sortDescBy gatherKey (gatherMatches q location threshold sigs))

/-! ### Python `collections.Counter` (insertion-ordered int-valued dict) -/

/-- A `Counter` state: association list in insertion order, keys are dataset
indices, values are (possibly zero or negative) integers. -/
abbrev PyCounter := List (ℕ × ℤ)

/-- `counter[k]` read access (`Counter.__missing__` yields 0). -/
def counterGet : PyCounter → ℕ → ℤ
  | [], _ => 0
  | p :: rest, k => if p.1 = k then p.2 else counterGet rest k

/-- Whether `k` is a stored key of the counter. -/
def hasKey : PyCounter → ℕ → Bool
  | [], _ => false
  | p :: rest, k => p.1 = k || hasKey rest k

/-- `counter[k] = v`: in-place update of the (unique) stored entry for `k`
if present (dicts keep the key's insertion position), append at the end
otherwise. -/
def counterSet : PyCounter → ℕ → ℤ → PyCounter
  | [], k, v => [(k, v)]
  | p :: rest, k, v =>
    if p.1 = k then (k, v) :: rest else p :: counterSet rest k v

/-- `del counter[k]`. -/
def counterDel : PyCounter → ℕ → PyCounter
  | [], _ => []
  | p :: rest, k =>
    if p.1 = k then counterDel rest k else p :: counterDel rest k

/-- `counter[k] -= v` (via `__missing__`, a missing key is treated as 0 and
the key is (re-)inserted at the end). -/
def counterSub (c : PyCounter) (k : ℕ) (v : ℤ) : PyCounter :=
  counterSet c k (counterGet c k - v)

/-- `Counter.most_common()`: `sorted(items, key=itemgetter(1), reverse=True)`,
a stable descending sort by value, so ties keep insertion order. -/
def mostCommon (c : PyCounter) : PyCounter :=
  sortDescBy (fun p => p.2) c

/-! ### `Index.counter_gather` (source lines 129-190) -/

/-- One pass of the decrement loop body for key `k`:
`counter[k] -= d k; if counter[k] == 0: del counter[k]`. -/
def cgDecStep (d : ℕ → ℤ) (c : PyCounter) (k : ℕ) : PyCounter :=
  let c' := counterSub c k (d k)
  if counterGet c' k = 0 then counterDel c' k else c'

/-- The per-key decrement `signatures[k].minhash.count_common(match.minhash,
True)` applied against the chosen match. -/
def cgDec (q : QueryOps) (sigs : List Sig) (matchSig : Sig) (k : ℕ) : ℤ :=
  (q.sig_count_common (sigs.getD k default) matchSig : ℤ)

/-- The counter after one greedy iteration that chose key `chosen`:
`del counter[chosen]`, then the decrement loop over the `most_common()`
snapshot of the pre-iteration counter (which still lists `chosen`). -/
def cgNextCounter (q : QueryOps) (sigs : List Sig) (counter : PyCounter)
    (chosen : ℕ) : PyCounter :=
  let matchSig := sigs.getD chosen default
  (mostCommon counter).foldl
    (fun c p => cgDecStep (cgDec q sigs matchSig) c p.1)
    (counterDel counter chosen)

/-- The results list after one greedy iteration that chose key `chosen`:
append `(cont, match, getattr(self, "filename", None))` when the containment
is truthy and meets the threshold. -/
def cgEmit (q : QueryOps) (sigs : List Sig) (src : Option String) (thr : ℚ)
    (res : List SearchResult) (chosen : ℕ) : List SearchResult :=
  let msig := sigs.getD chosen default
  let cont := q.mh_contained_by msig
  if cont ≠ 0 ∧ thr ≤ cont then res ++ [⟨cont, msig, src⟩] else res

/-- The greedy loop of `counter_gather`
(`while counter and match_size >= n_threshold_hashes: ...`).

The recursion is driven by a fuel argument.  For `n_threshold_hashes ≥ 0`
every iteration selects a key whose value is `≥ n_threshold_hashes ≥ 0`,
which after the iteration is absent or strictly negative and only ever
decreases further, so at most `sigs.length` iterations run and the fuel
`sigs.length + 1` supplied by `counterGather` is never exhausted.  (For a
negative `threshold_bp` the Python loop can run forever; the model is only
used with the fuel bound.) -/
def cgLoop (q : QueryOps) (sigs : List Sig) (src : Option String)
    (nth thr : ℚ) :
    ℕ → PyCounter → ℚ → List SearchResult → List SearchResult
  | 0, _, _, res => res
  | fuel + 1, counter, match_size, res =>
    if counter ≠ [] ∧ nth ≤ match_size then
      match (mostCommon counter).head? with
      | none => res
      | some best =>
        if nth ≤ (best.2 : ℚ) then
          cgLoop q sigs src nth thr fuel (cgNextCounter q sigs counter best.1)
            (best.2 : ℚ) (cgEmit q sigs src thr res best.1)
        else res
    else res

/-- `Index.counter_gather`.  `fnAttr` models `getattr(self, "filename",
None)`; none of the concrete backends in the source stores an attribute
named `filename`, so it is `none` for all of them (see `C10`). -/
def counterGather (q : QueryOps) (sigs : List Sig) (fnAttr : Option String)
    (threshold_bp : ℚ) : Except String (List SearchResult) :=
  if q.mhLen = 0 then .ok []
  else if q.scaled = 0 then .error "gather requires scaled signatures"
  else
    let nth : ℚ :=
      if threshold_bp = 0 then 0 else threshold_bp / (q.scaled : ℚ)
    let thr : ℚ :=
      if threshold_bp = 0 then 0
      else (threshold_bp / (q.scaled : ℚ)) / (q.mhLen : ℚ)
    if threshold_bp ≠ 0 ∧ 1 < thr then .ok []
    else
      -- `for i, ss in enumerate(signatures): counter[i] = count_common(...)`
      let counter0 : PyCounter := (List.range sigs.length).map fun i =>
        (i, (q.mh_count_common (sigs.getD i default) : ℤ))
      .ok (sortDescBy gatherKey
        (cgLoop q sigs fnAttr nth thr (sigs.length + 1) counter0 nth []))

/-! ### `select_signature` (source lines 212-240) -/

/-- The keyword arguments of `select` (`None`/`0`/`""`/`False` defaults are
all falsy; we use `0` for the absent `ksize`/`moltype`/`scaled`/`num`). -/
structure SelectParams where
  ksize : ℕ
  moltype : ℕ
  scaled : ℕ
  num : ℕ
  containment : Bool
deriving DecidableEq, Repr

/-- `select_signature(ss, ...)`: pure predicate; raises when `containment`
is requested without `scaled`. -/
def select_signature (ss : Sig) (p : SelectParams) : Except String Bool :=
  if p.ksize ≠ 0 ∧ p.ksize ≠ ss.ksize then .ok false
  else if p.moltype ≠ 0 ∧ p.moltype ≠ ss.moltype then .ok false
  else if p.containment ∧ p.scaled = 0 then
    .error "containment requires scaled in Index.select"
  else if p.containment ∧ ss.scaled = 0 then .ok false
  else if p.scaled ≠ 0 ∧ ss.num ≠ 0 then .ok false
  else if p.num ≠ 0 ∧ (ss.scaled ≠ 0 ∨ p.num ≠ ss.num) then .ok false
  else .ok true

/-! ### `LinearIndex` (source lines 243-286) -/

/-- `LinearIndex.__init__(_signatures, filename)` stores the signature list
and stores the `filename` argument under the attribute `location`. -/
structure LinearIndex where
  sigList : List Sig
  location : Option String
deriving DecidableEq, Repr

/-- The filtering loop of `LinearIndex.select`: first raising
`select_signature` call aborts, matching signatures are kept in order. -/
def selectLoop (p : SelectParams) : List Sig → Except String (List Sig)
  | [] => .ok []
  | ss :: rest =>
    match select_signature ss p with
    | .error e => .error e
    | .ok b =>
      match selectLoop p rest with
      | .error e => .error e
      | .ok tail => .ok (if b then ss :: tail else tail)

/-- `LinearIndex.select`: returns `LinearIndex(siglist, self.location)`. -/
def LinearIndex.select (idx : LinearIndex) (p : SelectParams) :
    Except String LinearIndex :=
  match selectLoop p idx.sigList with
  | .error e => .error e
  | .ok siglist => .ok ⟨siglist, idx.location⟩

/-- `LinearIndex.search` (inherited base algorithm over `signatures()` and
`self.location`). -/
def LinearIndex.search (idx : LinearIndex) (q : QueryOps)
    (threshold : Option ℚ) (do_containment do_max_containment
    ignore_abundance : Bool) : Except String (List SearchResult) :=
  searchAlg q idx.sigList idx.location threshold do_containment
    do_max_containment ignore_abundance

/-- `LinearIndex.gather` (inherited base algorithm). -/
def LinearIndex.gather (idx : LinearIndex) (q : QueryOps) (threshold_bp : ℚ) :
    Except String (List SearchResult) :=
  gatherAlg q idx.sigList idx.location threshold_bp

/-- `LinearIndex.counter_gather` (inherited base algorithm).
`getattr(self, "filename", None)` is `none`: `LinearIndex.__init__` stores
its `filename` argument under `self.location` and never sets an attribute
named `filename`. -/
def LinearIndex.counter_gather (idx : LinearIndex) (q : QueryOps)
    (threshold_bp : ℚ) : Except String (List SearchResult) :=
  counterGather q idx.sigList none threshold_bp

/-! ### `ZipFileLinearIndex` (source lines 289-348) -/

/-- One member entry of the zip container: its name and the list of
signatures `load_signatures` yields from it (empty for a malformed or
non-signature entry — `load_signatures` silently fails and yields nothing). -/
structure ZipEntry where
  filename : String
  sigs : List Sig

/-- The zip container handle (`self.zf`). -/
structure ZipHandle where
  filename : Option String
  entries : List ZipEntry

/-- `ZipFileLinearIndex.__init__(zf, selection_dict, traverse_yield_all)`.
`selection_dict = none` models the empty/absent (falsy) dict. -/
structure ZipFileLinearIndex where
  zf : ZipHandle
  selection_dict : Option SelectParams
  traverse_yield_all : Bool

/-- Should this zip member be loaded?  `.sig`/`.sig.gz` suffix, or the
`traverse_yield_all` override. -/
def zipEntryKept (z : ZipFileLinearIndex) (e : ZipEntry) : Bool :=
  e.filename.endsWith ".sig" || e.filename.endsWith ".sig.gz" ||
    z.traverse_yield_all

/-- Filtering of decoded signatures through `select_signature` when a
selection dict is attached (errors from `select_signature` propagate out of
the generator). -/
def zipFilterSigs (sel : Option SelectParams) :
    List Sig → Except String (List Sig)
  | [] => .ok []
  | ss :: rest =>
    match (match sel with
      | none => Except.ok true
      | some p => select_signature ss p) with
    | .error e => .error e
    | .ok keep =>
      match zipFilterSigs sel rest with
      | .error e => .error e
      | .ok tail => .ok (if keep then ss :: tail else tail)

/-- `ZipFileLinearIndex.signatures()`: iterate kept entries, decode each,
filter through the attached selection dict. -/
def ZipFileLinearIndex.signatures (z : ZipFileLinearIndex) :
    Except String (List Sig) :=
  zipFilterSigs z.selection_dict
    ((z.zf.entries.filter (zipEntryKept z)).flatMap fun e => e.sigs)

/-- `ZipFileLinearIndex.select`: a new index on the same container handle
with the new selection dict attached (the previous dict is replaced, not
composed). -/
def ZipFileLinearIndex.select (z : ZipFileLinearIndex)
    (kw : Option SelectParams) : ZipFileLinearIndex :=
  ⟨z.zf, kw, z.traverse_yield_all⟩

/-! ### `MultiIndex` (source lines 351-481) -/

/-- A sub-index of a `MultiIndex`, abstracted to what the delegated base
algorithms read: its enumeration and its own `location`. -/
structure SubIndex where
  sigs : List Sig
  location : Option String

/-- `best_src = src or filename`: Python `or` keeps `src` only when truthy
(not `None` and not the empty string). -/
def pyOrSource (src filename : Option String) : Option String :=
  match src with
  | none => filename
  | some s => if s = "" then filename else some s

/-- The pooled, re-tagged matches of `MultiIndex.search` before the final
sort, in sub-index list order; an error from a sub-index propagates. -/
def multiSearchPool (q : QueryOps) (threshold : Option ℚ)
    (dc dmc ia : Bool) :
    List (SubIndex × Option String) → Except String (List SearchResult)
  | [] => .ok []
  | (idx, src) :: rest =>
    match searchAlg q idx.sigs idx.location threshold dc dmc ia with
    | .error e => .error e
    | .ok sub =>
      match multiSearchPool q threshold dc dmc ia rest with
      | .error e => .error e
      | .ok more =>
        .ok ((sub.map fun r => ⟨r.score, r.sig, pyOrSource src r.source⟩)
          ++ more)

/-- `MultiIndex.search`: delegate to each sub-index in list order, re-tag
provenance with `src or filename`, pool, then `sort(key=lambda x: -x[0])`. -/
def multiSearch (q : QueryOps) (idxs : List SubIndex)
    (srcs : List (Option String)) (threshold : Option ℚ) (dc dmc ia : Bool) :
    Except String (List SearchResult) :=
  match multiSearchPool q threshold dc dmc ia (idxs.zip srcs) with
  | .error e => .error e
  | .ok pool => .ok (sortDescBy (fun r => r.score) pool)

/-- The pooled, re-tagged results of `MultiIndex.gather` before the final
sort. -/
def multiGatherPool (q : QueryOps) (threshold_bp : ℚ) :
    List (SubIndex × Option String) → Except String (List SearchResult)
  | [] => .ok []
  | (idx, src) :: rest =>
    match gatherAlg q idx.sigs idx.location threshold_bp with
    | .error e => .error e
    | .ok sub =>
      match multiGatherPool q threshold_bp rest with
      | .error e => .error e
      | .ok more =>
        .ok ((sub.map fun r => ⟨r.score, r.sig, pyOrSource src r.source⟩)
          ++ more)

/-- `MultiIndex.gather`: delegate, re-tag, pool, then
`sort(reverse=True, key=lambda x: (x[0], x[1].md5sum()))`. -/
def multiGather (q : QueryOps) (idxs : List SubIndex)
    (srcs : List (Option String)) (threshold_bp : ℚ) :
    Except String (List SearchResult) :=
  match multiGatherPool q threshold_bp (idxs.zip srcs) with
  | .error e => .error e
  | .ok pool => .ok (sortDescBy gatherKey pool)

/-! ### Concrete fixtures used by witnesses and counterexamples -/

/-- A concrete signature (fingerprint 100). -/
def sigA : Sig := ⟨31, 1, 1, 0, 100⟩

/-- A concrete signature (fingerprint 50). -/
def sigB : Sig := ⟨31, 1, 1, 0, 50⟩

/-- A concrete scaled, non-empty query over `sigA`/`sigB`: similarity 1 / 2,
containment 1 for both, shared hash counts 10 / 7, pairwise overlap 3. -/
def exQ : QueryOps :=
  ⟨10, 1,
   fun _ ss => if ss.md5 = 100 then 1 else 2,
   fun _ => 0,
   fun _ => 0,
   fun _ => 1,
   fun ss => if ss.md5 = 100 then 10 else 7,
   fun a b =>
     if a.md5 = 100 ∧ b.md5 = 100 then 10
     else if a.md5 = 50 ∧ b.md5 = 50 then 7 else 3⟩

/-- The output of `search` on `exQ` over `[sigA, sigB]` at threshold 1. -/
def exSearchOut : List SearchResult :=
  [⟨2, sigB, some "f.sig"⟩, ⟨1, sigA, some "f.sig"⟩]

/-! ### Helper lemmas -/

theorem mem_searchMatches {f : Sig → ℚ} {t : ℚ} {loc : Option String}
    {sigs : List Sig} {r : SearchResult} :
    r ∈ searchMatches f t loc sigs ↔
      ∃ ss ∈ sigs, t ≤ f ss ∧ r = ⟨f ss, ss, loc⟩ := by
  simp only [searchMatches, List.mem_filterMap]
  constructor
  · rintro ⟨ss, hss, hr⟩
    by_cases h : t ≤ f ss
    · rw [if_pos h] at hr
      exact ⟨ss, hss, h, (Option.some.inj hr).symm⟩
    · rw [if_neg h] at hr; exact absurd hr (by simp)
  · rintro ⟨ss, hss, h, rfl⟩
    exact ⟨ss, hss, by rw [if_pos h]⟩

theorem searchAlg_ok {q : QueryOps} {sigs : List Sig} {loc : Option String}
    {t : ℚ} {dc dmc ia : Bool} {L : List SearchResult}
    (hL : searchAlg q sigs loc (some t) dc dmc ia = .ok L) :
    L = sortDescBy (fun r => r.score)
      (searchMatches (searchScorer q dc dmc ia) t loc sigs) := by
  by_cases h : (dc && dmc) = true
  · simp only [searchAlg, if_pos h] at hL
    exact absurd hL (by simp)
  · simp only [searchAlg, if_neg h] at hL
    exact (Except.ok.inj hL).symm

/-! ### C1 -/

/-- C1: For every Index backend (the shared base-class algorithm over the
backend's enumeration `sigs` and `self.location`), every query and every
threshold `t`, `search` returns exactly the signatures (paired with their
selected score and the index's location) whose selected score is `≥ t`, as a
list sorted non-increasing by score, with equal-score results kept in their
relative enumeration order (stable sort on score only). -/
theorem search_exact_sorted_stable (q : QueryOps) (sigs : List Sig)
    (loc : Option String) (t : ℚ) (dc dmc ia : Bool) (L : List SearchResult)
    (hL : searchAlg q sigs loc (some t) dc dmc ia = .ok L) :
    List.Perm L (searchMatches (searchScorer q dc dmc ia) t loc sigs) ∧
    (∀ r ∈ L, r.score = searchScorer q dc dmc ia r.sig ∧ t ≤ r.score ∧
      r.source = loc ∧ r.sig ∈ sigs) ∧
    (∀ ss ∈ sigs, t ≤ searchScorer q dc dmc ia ss →
      (⟨searchScorer q dc dmc ia ss, ss, loc⟩ : SearchResult) ∈ L) ∧
    List.Pairwise (fun a b => b.score ≤ a.score) L ∧
    (∀ s : ℚ, L.filter (fun r => decide (r.score = s)) =
      (searchMatches (searchScorer q dc dmc ia) t loc sigs).filter
        (fun r => decide (r.score = s))) := by
  have hEq := searchAlg_ok hL
  subst hEq
  set f := searchScorer q dc dmc ia with hf
  refine ⟨sortDescBy_perm _ _, ?_, ?_, sortDescBy_sorted _ _, ?_⟩
  · intro r hr
    rcases mem_searchMatches.mp (mem_sortDescBy.mp hr) with ⟨ss, hss, hts, rfl⟩
    exact ⟨rfl, hts, rfl, hss⟩
  · intro ss hss hts
    exact mem_sortDescBy.mpr (mem_searchMatches.mpr ⟨ss, hss, hts, rfl⟩)
  · intro s
    exact sortDescBy_filter_key (fun r : SearchResult => r.score) _ s

/-- Witness for C1 at a concrete two-signature index. -/
theorem search_exact_sorted_stable_witness :
    searchAlg exQ [sigA, sigB] (some "f.sig") (some 1) false false false =
      .ok exSearchOut ∧
    List.Perm exSearchOut
      (searchMatches (searchScorer exQ false false false) 1 (some "f.sig")
        [sigA, sigB]) ∧
    List.Pairwise (fun a b => b.score ≤ a.score) exSearchOut :=
  ⟨rfl,
   (search_exact_sorted_stable exQ [sigA, sigB] (some "f.sig") 1 false false
      false exSearchOut rfl).1,
   (search_exact_sorted_stable exQ [sigA, sigB] (some "f.sig") 1 false false
      false exSearchOut rfl).2.2.2.1⟩

/-! ### C2 -/

/-- C2: For every query, `search` raises a configuration error when the
threshold argument is absent, and when `do_containment` and
`do_max_containment` are both true; in either case the error is raised
before any signature is enumerated or scored (the outcome is the same for
every signature list, in particular for the empty one). -/
theorem search_config_errors (q : QueryOps) (sigs : List Sig)
    (loc : Option String) (t : ℚ) (dc dmc ia : Bool) :
    searchAlg q sigs loc none dc dmc ia =
      .error "search requires threshold" ∧
    searchAlg q sigs loc (some t) true true ia =
      .error "do_containment and do_max_containment cannot both be True" ∧
    searchAlg q sigs loc none dc dmc ia =
      searchAlg q [] loc none dc dmc ia ∧
    searchAlg q sigs loc (some t) true true ia =
      searchAlg q [] loc (some t) true true ia :=
  ⟨rfl, rfl, rfl, rfl⟩

/-! ### C3 -/

/-- A query whose sketch is empty and uses a fixed-size (non-scaled)
policy. -/
def exQEmptyNum : QueryOps :=
  ⟨0, 0, fun _ _ => 0, fun _ => 0, fun _ => 0, fun _ => 0, fun _ => 0,
   fun _ _ => 0⟩

/-- A query whose sketch is non-empty and uses a fixed-size (non-scaled)
policy. -/
def exQNumNonempty : QueryOps :=
  ⟨5, 0, fun _ _ => 0, fun _ => 0, fun _ => 0, fun _ => 0, fun _ => 0,
   fun _ _ => 0⟩

/-- Counterexample to C3: a query whose sketch uses a fixed-size (non-scaled)
policy but is empty makes `gather` and `counter_gather` return the empty
list rather than raise — the emptiness check runs before the scaled-policy
check, contradicting "gather on any query whose sketch uses a fixed-size
(non-scaled) policy raises a configuration error". -/
theorem gather_fixed_size_no_error_counterexample :
    exQEmptyNum.scaled = 0 ∧ exQEmptyNum.mhLen = 0 ∧
    gatherAlg exQEmptyNum [sigA] (some "f.sig") 0 = .ok [] ∧
    counterGather exQEmptyNum [sigA] none 0 = .ok [] :=
  ⟨rfl, rfl, rfl, rfl⟩

/-- C3 (amended): for every query, `gather` and `counter_gather` return the
empty list immediately when the query's sketch is empty — this check takes
precedence — and fail with a configuration error when the sketch is
non-empty and has no scaled policy; in particular a fixed-size-policy query
raises exactly when its sketch is non-empty. -/
theorem gather_empty_then_unscaled (q : QueryOps) (sigs : List Sig)
    (loc fn : Option String) (bp : ℚ) :
    (q.mhLen = 0 →
      gatherAlg q sigs loc bp = .ok [] ∧
      counterGather q sigs fn bp = .ok []) ∧
    (q.mhLen ≠ 0 → q.scaled = 0 →
      gatherAlg q sigs loc bp = .error "gather requires scaled signatures" ∧
      counterGather q sigs fn bp =
        .error "gather requires scaled signatures") := by
  constructor
  · intro h
    exact ⟨by simp [gatherAlg, h], by simp [counterGather, h]⟩
  · intro h1 h2
    exact ⟨by simp [gatherAlg, h1, h2], by simp [counterGather, h1, h2]⟩

/-- Witness for the amended C3: both branches at concrete queries. -/
theorem gather_empty_then_unscaled_witness :
    (gatherAlg exQEmptyNum [sigA] (some "f.sig") 0 = .ok [] ∧
      counterGather exQEmptyNum [sigA] none 0 = .ok []) ∧
    (gatherAlg exQNumNonempty [sigA] (some "f.sig") 0 =
        .error "gather requires scaled signatures" ∧
      counterGather exQNumNonempty [sigA] none 0 =
        .error "gather requires scaled signatures") :=
  ⟨(gather_empty_then_unscaled exQEmptyNum [sigA] (some "f.sig") none 0).1
      rfl,
   (gather_empty_then_unscaled exQNumNonempty [sigA] (some "f.sig") none
      0).2 (by decide) rfl⟩

/-! ### C4 -/

theorem mem_gatherMatches {q : QueryOps} {loc : Option String} {thr : ℚ}
    {sigs : List Sig} {r : SearchResult} :
    r ∈ gatherMatches q loc thr sigs ↔
      ∃ ss ∈ sigs, (q.mh_contained_by ss ≠ 0 ∧ thr ≤ q.mh_contained_by ss) ∧
        r = ⟨q.mh_contained_by ss, ss, loc⟩ := by
  simp only [gatherMatches, List.mem_filterMap]
  constructor
  · rintro ⟨ss, hss, hr⟩
    by_cases h : q.mh_contained_by ss ≠ 0 ∧ thr ≤ q.mh_contained_by ss
    · rw [if_pos h] at hr
      exact ⟨ss, hss, h, (Option.some.inj hr).symm⟩
    · rw [if_neg h] at hr; exact absurd hr (by simp)
  · rintro ⟨ss, hss, h, rfl⟩
    exact ⟨ss, hss, by rw [if_pos h]⟩

/-- C4: for every scaled, non-empty query and every `threshold_bp`, `gather`
uses the containment threshold
`(threshold_bp / scaled) / len(query.minhash)` (with `threshold_bp = 0`
giving threshold 0), returns the empty list whenever that threshold exceeds
1, and otherwise returns exactly those signatures whose containment
`query.contained_by(candidate)` is nonzero and `≥` the threshold. -/
theorem gather_threshold_conversion_and_filter (q : QueryOps)
    (sigs : List Sig) (loc : Option String) (bp : ℚ) (h1 : q.mhLen ≠ 0)
    (h2 : q.scaled ≠ 0) :
    (1 < (bp / (q.scaled : ℚ)) / (q.mhLen : ℚ) →
      gatherAlg q sigs loc bp = .ok []) ∧
    (¬ 1 < (bp / (q.scaled : ℚ)) / (q.mhLen : ℚ) →
      ∀ L, gatherAlg q sigs loc bp = .ok L →
        List.Perm L
          (gatherMatches q loc ((bp / (q.scaled : ℚ)) / (q.mhLen : ℚ))
            sigs) ∧
        (∀ r ∈ L, q.mh_contained_by r.sig ≠ 0 ∧
          (bp / (q.scaled : ℚ)) / (q.mhLen : ℚ) ≤ q.mh_contained_by r.sig ∧
          r.score = q.mh_contained_by r.sig ∧ r.sig ∈ sigs ∧
          r.source = loc) ∧
        (∀ ss ∈ sigs, q.mh_contained_by ss ≠ 0 →
          (bp / (q.scaled : ℚ)) / (q.mhLen : ℚ) ≤ q.mh_contained_by ss →
          (⟨q.mh_contained_by ss, ss, loc⟩ : SearchResult) ∈ L)) := by
  have hthr : (if bp = 0 then (0 : ℚ)
      else (bp / (q.scaled : ℚ)) / (q.mhLen : ℚ)) =
      (bp / (q.scaled : ℚ)) / (q.mhLen : ℚ) := by
    by_cases hbp : bp = 0
    · subst hbp; simp [zero_div]
    · rw [if_neg hbp]
  constructor
  · intro hgt
    have hbp : bp ≠ 0 := by
      intro h0
      rw [h0] at hgt
      simp only [zero_div] at hgt
      exact absurd hgt (by norm_num)
    simp only [gatherAlg, if_neg h1, if_neg h2, hthr]
    rw [if_pos ⟨hbp, hgt⟩]
  · intro hle L hL
    simp only [gatherAlg, if_neg h1, if_neg h2, hthr] at hL
    rw [if_neg (fun hc => hle hc.2)] at hL
    have hEq := (Except.ok.inj hL).symm
    subst hEq
    refine ⟨sortDescBy_perm _ _, ?_, ?_⟩
    · intro r hr
      rcases mem_gatherMatches.mp (mem_sortDescBy.mp hr) with
        ⟨ss, hss, ⟨hne, hth⟩, rfl⟩
      exact ⟨hne, hth, rfl, hss, rfl⟩
    · intro ss hss hne hth
      exact mem_sortDescBy.mpr (mem_gatherMatches.mpr ⟨ss, hss, ⟨hne, hth⟩, rfl⟩)

/-- The output of `gather` on `exQ` over `[sigA, sigB]` with
`threshold_bp = 0`. -/
def exGatherOut : List SearchResult :=
  [⟨1, sigA, some "f.sig"⟩, ⟨1, sigB, some "f.sig"⟩]

/-- Witness for C4 at a concrete scaled two-signature index. -/
theorem gather_threshold_conversion_and_filter_witness :
    gatherAlg exQ [sigA, sigB] (some "f.sig") 0 = .ok exGatherOut ∧
    List.Perm exGatherOut
      (gatherMatches exQ (some "f.sig")
        ((0 / (exQ.scaled : ℚ)) / (exQ.mhLen : ℚ)) [sigA, sigB]) :=
  ⟨rfl,
   (((gather_threshold_conversion_and_filter exQ [sigA, sigB] (some "f.sig")
      0 (by decide) (by decide)).2 (by simp [zero_div]) exGatherOut)
      rfl).1⟩

/-! ### C5 -/

/-- The descending-lexicographic order on `(containment, fingerprint)` used
by `gather` / `counter_gather` output: larger containment first, and on
equal containment the lexicographically larger fingerprint first. -/
def gatherGe (a b : SearchResult) : Prop :=
  b.score < a.score ∨ (b.score = a.score ∧ b.sig.md5 ≤ a.sig.md5)

theorem gatherGe_of_keyGe {a b : SearchResult}
    (h : gatherKey b ≤ gatherKey a) : gatherGe a b := by
  simp only [gatherKey] at h
  rcases (Prod.Lex.le_iff _ _).mp h with hlt | ⟨heq, hle⟩
  · exact Or.inl hlt
  · exact Or.inr ⟨heq, hle⟩

theorem pairwise_gatherGe_sortDescBy (l : List SearchResult) :
    List.Pairwise gatherGe (sortDescBy gatherKey l) :=
  (sortDescBy_sorted gatherKey l).imp fun h => gatherGe_of_keyGe h

/-- C5: for every index and query, the result lists of `gather` and of
`counter_gather` are sorted in descending lexicographic order of
`(containment, fingerprint)`: equal-containment ties rank the
lexicographically larger fingerprint first. -/
theorem gather_and_counter_gather_sorted (q : QueryOps) (sigs : List Sig)
    (loc fn : Option String) (bp : ℚ) (L L' : List SearchResult) :
    (gatherAlg q sigs loc bp = .ok L → List.Pairwise gatherGe L) ∧
    (counterGather q sigs fn bp = .ok L' → List.Pairwise gatherGe L') := by
  constructor
  · intro hL
    unfold gatherAlg at hL
    dsimp only at hL
    split_ifs at hL <;>
      first
        | (rw [← Except.ok.inj hL]; exact List.Pairwise.nil)
        | (rw [← Except.ok.inj hL]; exact pairwise_gatherGe_sortDescBy _)
        | exact absurd hL (by simp)
  · intro hL
    unfold counterGather at hL
    dsimp only at hL
    split_ifs at hL <;>
      first
        | (rw [← Except.ok.inj hL]; exact List.Pairwise.nil)
        | (rw [← Except.ok.inj hL]; exact pairwise_gatherGe_sortDescBy _)
        | exact absurd hL (by simp)

/-- The output of `counter_gather` on `exQ` over `[sigA, sigB]` with
`threshold_bp = 0`. -/
def exCounterGatherOut : List SearchResult :=
  [⟨1, sigA, none⟩, ⟨1, sigB, none⟩]

/-- Witness for C5 at a concrete index where both results tie on containment
and are ordered by descending fingerprint. -/
theorem gather_and_counter_gather_sorted_witness :
    gatherAlg exQ [sigA, sigB] (some "f.sig") 0 = .ok exGatherOut ∧
    counterGather exQ [sigA, sigB] none 0 = .ok exCounterGatherOut ∧
    List.Pairwise gatherGe exGatherOut ∧
    List.Pairwise gatherGe exCounterGatherOut :=
  ⟨rfl, rfl,
   (gather_and_counter_gather_sorted exQ [sigA, sigB] (some "f.sig") none 0
      exGatherOut exCounterGatherOut).1 rfl,
   (gather_and_counter_gather_sorted exQ [sigA, sigB] (some "f.sig") none 0
      exGatherOut exCounterGatherOut).2 rfl⟩

/-! ### Counter lemmas (for C6 / C7) -/

/-- The keys of a counter are pairwise distinct (an invariant of every
Python dict, hence of every reachable counter state). -/
abbrev KeysNodup (c : PyCounter) : Prop := (c.map Prod.fst).Nodup

theorem hasKey_iff_mem_keys {c : PyCounter} {k : ℕ} :
    hasKey c k = true ↔ k ∈ c.map Prod.fst := by
  induction c with
  | nil => simp [hasKey]
  | cons p rest ih =>
    simp only [hasKey, List.map_cons, List.mem_cons, Bool.or_eq_true,
      decide_eq_true_eq, ih]
    constructor
    · rintro (h | h)
      · exact Or.inl h.symm
      · exact Or.inr h
    · rintro (h | h)
      · exact Or.inl h.symm
      · exact Or.inr h

theorem counterGet_del_self (c : PyCounter) (k : ℕ) :
    counterGet (counterDel c k) k = 0 := by
  induction c with
  | nil => rfl
  | cons p rest ih =>
    by_cases h : p.1 = k
    · rw [counterDel, if_pos h]; exact ih
    · rw [counterDel, if_neg h, counterGet, if_neg h]; exact ih

theorem hasKey_del_self (c : PyCounter) (k : ℕ) :
    hasKey (counterDel c k) k = false := by
  induction c with
  | nil => rfl
  | cons p rest ih =>
    by_cases h : p.1 = k
    · rw [counterDel, if_pos h]; exact ih
    · rw [counterDel, if_neg h, hasKey, ih]
      simp [h]

theorem counterGet_del_ne (c : PyCounter) {j k : ℕ} (h : j ≠ k) :
    counterGet (counterDel c j) k = counterGet c k := by
  induction c with
  | nil => rfl
  | cons p rest ih =>
    by_cases hp : p.1 = j
    · have hpk : ¬ p.1 = k := by rw [hp]; exact h
      rw [counterDel, if_pos hp, counterGet, if_neg hpk]; exact ih
    · by_cases hk : p.1 = k
      · rw [counterDel, if_neg hp, counterGet, if_pos hk, counterGet,
          if_pos hk]
      · rw [counterDel, if_neg hp, counterGet, if_neg hk, counterGet,
          if_neg hk]
        exact ih

theorem hasKey_del_ne (c : PyCounter) {j k : ℕ} (h : j ≠ k) :
    hasKey (counterDel c j) k = hasKey c k := by
  induction c with
  | nil => rfl
  | cons p rest ih =>
    by_cases hp : p.1 = j
    · have hpk : ¬ p.1 = k := by rw [hp]; exact h
      rw [counterDel, if_pos hp, hasKey, ih]
      simp [hpk]
    · rw [counterDel, if_neg hp, hasKey, hasKey, ih]

theorem counterGet_set_self (c : PyCounter) (k : ℕ) (v : ℤ) :
    counterGet (counterSet c k v) k = v := by
  induction c with
  | nil => simp [counterSet, counterGet]
  | cons p rest ih =>
    by_cases h : p.1 = k
    · rw [counterSet, if_pos h, counterGet, if_pos rfl]
    · rw [counterSet, if_neg h, counterGet, if_neg h]; exact ih

theorem hasKey_set_self (c : PyCounter) (k : ℕ) (v : ℤ) :
    hasKey (counterSet c k v) k = true := by
  induction c with
  | nil => simp [counterSet, hasKey]
  | cons p rest ih =>
    by_cases h : p.1 = k
    · rw [counterSet, if_pos h, hasKey]; simp
    · rw [counterSet, if_neg h, hasKey, ih]; simp

theorem counterGet_set_ne (c : PyCounter) {j k : ℕ} (h : j ≠ k) (v : ℤ) :
    counterGet (counterSet c j v) k = counterGet c k := by
  induction c with
  | nil => simp [counterSet, counterGet, h]
  | cons p rest ih =>
    by_cases hp : p.1 = j
    · have hpk : ¬ p.1 = k := by rw [hp]; exact h
      rw [counterSet, if_pos hp, counterGet, if_neg h, counterGet,
        if_neg hpk]
    · by_cases hk : p.1 = k
      · rw [counterSet, if_neg hp, counterGet, if_pos hk, counterGet,
          if_pos hk]
      · rw [counterSet, if_neg hp, counterGet, if_neg hk, counterGet,
          if_neg hk]
        exact ih

theorem hasKey_set_ne (c : PyCounter) {j k : ℕ} (h : j ≠ k) (v : ℤ) :
    hasKey (counterSet c j v) k = hasKey c k := by
  induction c with
  | nil => simp [counterSet, hasKey, h]
  | cons p rest ih =>
    by_cases hp : p.1 = j
    · have hpk : ¬ p.1 = k := by rw [hp]; exact h
      rw [counterSet, if_pos hp, hasKey, hasKey]
      simp [h, hpk]
    · rw [counterSet, if_neg hp, hasKey, hasKey, ih]

theorem counterGet_sub_self (c : PyCounter) (k : ℕ) (v : ℤ) :
    counterGet (counterSub c k v) k = counterGet c k - v :=
  counterGet_set_self c k _

theorem hasKey_sub_self (c : PyCounter) (k : ℕ) (v : ℤ) :
    hasKey (counterSub c k v) k = true :=
  hasKey_set_self c k _

theorem counterGet_sub_ne (c : PyCounter) {j k : ℕ} (h : j ≠ k) (v : ℤ) :
    counterGet (counterSub c j v) k = counterGet c k :=
  counterGet_set_ne c h _

theorem hasKey_sub_ne (c : PyCounter) {j k : ℕ} (h : j ≠ k) (v : ℤ) :
    hasKey (counterSub c j v) k = hasKey c k :=
  hasKey_set_ne c h _

theorem counterGet_decStep_self (d : ℕ → ℤ) (c : PyCounter) (k : ℕ) :
    counterGet (cgDecStep d c k) k = counterGet c k - d k := by
  unfold cgDecStep
  dsimp only
  by_cases h : counterGet (counterSub c k (d k)) k = 0
  · rw [if_pos h, counterGet_del_self]
    rw [counterGet_sub_self] at h
    exact h.symm
  · rw [if_neg h, counterGet_sub_self]

theorem hasKey_decStep_self (d : ℕ → ℤ) (c : PyCounter) (k : ℕ) :
    hasKey (cgDecStep d c k) k = decide (counterGet c k - d k ≠ 0) := by
  unfold cgDecStep
  dsimp only
  rw [counterGet_sub_self]
  by_cases h : counterGet c k - d k = 0
  · rw [if_pos h, hasKey_del_self]
    simp [h]
  · rw [if_neg h, hasKey_sub_self]
    simp [h]

theorem counterGet_decStep_ne (d : ℕ → ℤ) (c : PyCounter) {j k : ℕ}
    (h : j ≠ k) : counterGet (cgDecStep d c j) k = counterGet c k := by
  unfold cgDecStep
  dsimp only
  by_cases h0 : counterGet (counterSub c j (d j)) j = 0
  · rw [if_pos h0, counterGet_del_ne _ h, counterGet_sub_ne _ h]
  · rw [if_neg h0, counterGet_sub_ne _ h]

theorem hasKey_decStep_ne (d : ℕ → ℤ) (c : PyCounter) {j k : ℕ}
    (h : j ≠ k) : hasKey (cgDecStep d c j) k = hasKey c k := by
  unfold cgDecStep
  dsimp only
  by_cases h0 : counterGet (counterSub c j (d j)) j = 0
  · rw [if_pos h0, hasKey_del_ne _ h, hasKey_sub_ne _ h]
  · rw [if_neg h0, hasKey_sub_ne _ h]

theorem decFold_not_mem (d : ℕ → ℤ) (ks : List ℕ) (c : PyCounter) (k : ℕ)
    (hk : k ∉ ks) :
    counterGet (ks.foldl (cgDecStep d) c) k = counterGet c k ∧
      hasKey (ks.foldl (cgDecStep d) c) k = hasKey c k := by
  induction ks generalizing c with
  | nil => exact ⟨rfl, rfl⟩
  | cons j rest ih =>
    have hjk : j ≠ k := fun h => hk (h ▸ List.mem_cons_self j rest)
    have hk' : k ∉ rest := fun h => hk (List.mem_cons_of_mem j h)
    rcases ih (cgDecStep d c j) hk' with ⟨h1, h2⟩
    exact ⟨h1.trans (counterGet_decStep_ne d c hjk),
      h2.trans (hasKey_decStep_ne d c hjk)⟩

theorem decFold_mem (d : ℕ → ℤ) (ks : List ℕ) (c : PyCounter) (k : ℕ)
    (hnd : ks.Nodup) (hk : k ∈ ks) :
    counterGet (ks.foldl (cgDecStep d) c) k = counterGet c k - d k ∧
      hasKey (ks.foldl (cgDecStep d) c) k =
        decide (counterGet c k - d k ≠ 0) := by
  induction ks generalizing c with
  | nil => exact absurd hk (List.not_mem_nil k)
  | cons j rest ih =>
    rcases List.mem_cons.mp hk with rfl | hmem
    · have hnotin : k ∉ rest := (List.nodup_cons.mp hnd).1
      rcases decFold_not_mem d rest (cgDecStep d c k) k hnotin with ⟨h1, h2⟩
      exact ⟨h1.trans (counterGet_decStep_self d c k),
        h2.trans (hasKey_decStep_self d c k)⟩
    · have hjk : j ≠ k := fun h => (List.nodup_cons.mp hnd).1 (h ▸ hmem)
      rcases ih (cgDecStep d c j) (List.nodup_cons.mp hnd).2 hmem with ⟨h1, h2⟩
      rw [counterGet_decStep_ne d c hjk] at h1 h2
      exact ⟨h1, h2⟩

theorem hasKey_decStep_imp (d : ℕ → ℤ) (c : PyCounter) (j k : ℕ)
    (h : hasKey (cgDecStep d c j) k = true) : k = j ∨ hasKey c k = true := by
  by_cases hjk : j = k
  · exact Or.inl hjk.symm
  · rw [hasKey_decStep_ne d c hjk] at h
    exact Or.inr h

theorem decFold_hasKey_imp (d : ℕ → ℤ) (ks : List ℕ) (c : PyCounter) (k : ℕ)
    (h : hasKey (ks.foldl (cgDecStep d) c) k = true) :
    hasKey c k = true ∨ k ∈ ks := by
  induction ks generalizing c with
  | nil => exact Or.inl h
  | cons j rest ih =>
    rcases ih (cgDecStep d c j) h with h' | h'
    · rcases hasKey_decStep_imp d c j k h' with rfl | h''
      · exact Or.inr (List.mem_cons_self k rest)
      · exact Or.inl h''
    · exact Or.inr (List.mem_cons_of_mem j h')

/-! Keys-uniqueness preservation -/

theorem keys_del_subset (c : PyCounter) (j : ℕ) :
    ∀ k ∈ (counterDel c j).map Prod.fst, k ∈ c.map Prod.fst := by
  induction c with
  | nil => intro k hk; exact absurd hk (by simp [counterDel])
  | cons p rest ih =>
    intro k hk
    by_cases hp : p.1 = j
    · rw [counterDel, if_pos hp] at hk
      exact List.mem_cons_of_mem _ (ih k hk)
    · rw [counterDel, if_neg hp] at hk
      rcases List.mem_cons.mp hk with h | h
      · exact h ▸ List.mem_cons_self _ _
      · exact List.mem_cons_of_mem _ (ih k h)

theorem keysNodup_del (c : PyCounter) (j : ℕ) (h : KeysNodup c) :
    KeysNodup (counterDel c j) := by
  induction c with
  | nil => exact h
  | cons p rest ih =>
    rcases List.nodup_cons.mp h with ⟨hp, hrest⟩
    by_cases hpj : p.1 = j
    · rw [KeysNodup, counterDel, if_pos hpj]
      exact ih hrest
    · rw [KeysNodup, counterDel, if_neg hpj, List.map_cons]
      exact List.nodup_cons.mpr
        ⟨fun hmem => hp (keys_del_subset rest j p.1 hmem), ih hrest⟩

theorem keys_set_subset (c : PyCounter) (j : ℕ) (v : ℤ) :
    ∀ k ∈ (counterSet c j v).map Prod.fst, k ∈ c.map Prod.fst ∨ k = j := by
  induction c with
  | nil =>
    intro k hk
    simp only [counterSet, List.map_cons, List.map_nil, List.mem_cons,
      List.not_mem_nil, or_false] at hk
    exact Or.inr hk
  | cons p rest ih =>
    intro k hk
    by_cases hp : p.1 = j
    · rw [counterSet, if_pos hp, List.map_cons] at hk
      rcases List.mem_cons.mp hk with h | h
      · exact Or.inr h
      · exact Or.inl (List.mem_cons_of_mem _ h)
    · rw [counterSet, if_neg hp, List.map_cons] at hk
      rcases List.mem_cons.mp hk with h | h
      · exact Or.inl (h ▸ List.mem_cons_self _ _)
      · rcases ih k h with h' | h'
        · exact Or.inl (List.mem_cons_of_mem _ h')
        · exact Or.inr h'

theorem keysNodup_set (c : PyCounter) (j : ℕ) (v : ℤ) (h : KeysNodup c) :
    KeysNodup (counterSet c j v) := by
  induction c with
  | nil => simp [KeysNodup, counterSet]
  | cons p rest ih =>
    rcases List.nodup_cons.mp h with ⟨hp, hrest⟩
    by_cases hpj : p.1 = j
    · rw [KeysNodup, counterSet, if_pos hpj, List.map_cons]
      exact List.nodup_cons.mpr ⟨hpj ▸ hp, hrest⟩
    · rw [KeysNodup, counterSet, if_neg hpj, List.map_cons]
      refine List.nodup_cons.mpr ⟨fun hmem => ?_, ih hrest⟩
      rcases keys_set_subset rest j v p.1 hmem with h' | h'
      · exact hp h'
      · exact hpj h'

theorem keysNodup_decStep (d : ℕ → ℤ) (c : PyCounter) (j : ℕ)
    (h : KeysNodup c) : KeysNodup (cgDecStep d c j) := by
  unfold cgDecStep
  dsimp only
  by_cases h0 : counterGet (counterSub c j (d j)) j = 0
  · rw [if_pos h0]
    exact keysNodup_del _ j (keysNodup_set c j _ h)
  · rw [if_neg h0]
    exact keysNodup_set c j _ h

theorem keysNodup_decFold (d : ℕ → ℤ) (ks : List ℕ) (c : PyCounter)
    (h : KeysNodup c) : KeysNodup (ks.foldl (cgDecStep d) c) := by
  induction ks generalizing c with
  | nil => exact h
  | cons j rest ih => exact ih _ (keysNodup_decStep d c j h)

/-- Looking up the key of a stored entry returns that entry's value (unique
keys). -/
theorem counterGet_of_mem {c : PyCounter} (hnd : KeysNodup c) {p : ℕ × ℤ}
    (hp : p ∈ c) : counterGet c p.1 = p.2 ∧ hasKey c p.1 = true := by
  induction c with
  | nil => exact absurd hp (List.not_mem_nil p)
  | cons q rest ih =>
    rcases List.mem_cons.mp hp with rfl | hmem
    · rw [counterGet, if_pos rfl, hasKey]
      simp
    · have hq : q.1 ≠ p.1 := by
        intro h
        exact (List.nodup_cons.mp hnd).1 (h ▸ List.mem_map_of_mem Prod.fst hmem)
      rw [counterGet, if_neg hq, hasKey]
      rcases ih (List.nodup_cons.mp hnd).2 hmem with ⟨h1, h2⟩
      rw [h1, h2]
      simp

theorem mostCommon_perm (c : PyCounter) : List.Perm (mostCommon c) c :=
  sortDescBy_perm _ c

theorem mostCommon_keys_nodup {c : PyCounter} (h : KeysNodup c) :
    ((mostCommon c).map Prod.fst).Nodup :=
  (((mostCommon_perm c).map Prod.fst).nodup_iff).mpr h

/-- Pointwise characterization of the counter after one greedy iteration of
`counter_gather` choosing key `chosen`: every other stored entry is
decremented by its `count_common` with the chosen match and dropped exactly
when the decremented value is 0, while the chosen key is first deleted and
then re-inserted by the decrement loop with value `-(count_common(match,
match))` — it remains a stored key exactly when that overlap is nonzero. -/
theorem cgNextCounter_char (q : QueryOps) (sigs : List Sig)
    (counter : PyCounter) (chosen : ℕ) (hnd : KeysNodup counter)
    (hmem : chosen ∈ counter.map Prod.fst) :
    (∀ p ∈ counter, p.1 ≠ chosen →
      counterGet (cgNextCounter q sigs counter chosen) p.1 =
        p.2 - cgDec q sigs (sigs.getD chosen default) p.1 ∧
      hasKey (cgNextCounter q sigs counter chosen) p.1 =
        decide (p.2 - cgDec q sigs (sigs.getD chosen default) p.1 ≠ 0)) ∧
    (counterGet (cgNextCounter q sigs counter chosen) chosen =
        -(cgDec q sigs (sigs.getD chosen default) chosen) ∧
      hasKey (cgNextCounter q sigs counter chosen) chosen =
        decide (cgDec q sigs (sigs.getD chosen default) chosen ≠ 0)) := by
  set d := cgDec q sigs (sigs.getD chosen default) with hd
  have hfold : cgNextCounter q sigs counter chosen =
      ((mostCommon counter).map Prod.fst).foldl (cgDecStep d)
        (counterDel counter chosen) := by
    rw [cgNextCounter, List.foldl_map]
  have hks : ((mostCommon counter).map Prod.fst).Nodup :=
    mostCommon_keys_nodup hnd
  constructor
  · intro p hp hne
    have hpk : p.1 ∈ (mostCommon counter).map Prod.fst :=
      List.mem_map_of_mem Prod.fst ((mostCommon_perm counter).mem_iff.mpr hp)
    have hc0 : counterGet (counterDel counter chosen) p.1 = p.2 := by
      rw [counterGet_del_ne counter (fun h => hne h.symm)]
      exact (counterGet_of_mem hnd hp).1
    rcases decFold_mem d _ (counterDel counter chosen) p.1 hks hpk with
      ⟨h1, h2⟩
    rw [hc0] at h1 h2
    rw [hfold]
    exact ⟨h1, h2⟩
  · have hck : chosen ∈ (mostCommon counter).map Prod.fst := by
      have : ((mostCommon counter).map Prod.fst).Perm
          (counter.map Prod.fst) := (mostCommon_perm counter).map Prod.fst
      exact this.mem_iff.mpr hmem
    have hc0 : counterGet (counterDel counter chosen) chosen = 0 :=
      counterGet_del_self counter chosen
    rcases decFold_mem d _ (counterDel counter chosen) chosen hks hck with
      ⟨h1, h2⟩
    rw [hc0, zero_sub] at h1 h2
    rw [hfold]
    refine ⟨h1, h2.trans ?_⟩
    rw [decide_eq_decide]
    exact neg_ne_zero

/-- The keys of the post-iteration counter are among the pre-iteration keys,
and remain pairwise distinct. -/
theorem cgNextCounter_keys (q : QueryOps) (sigs : List Sig)
    (counter : PyCounter) (chosen : ℕ) (hnd : KeysNodup counter) :
    KeysNodup (cgNextCounter q sigs counter chosen) ∧
    ∀ k, hasKey (cgNextCounter q sigs counter chosen) k = true →
      k ∈ counter.map Prod.fst := by
  set d := cgDec q sigs (sigs.getD chosen default) with hd
  have hfold : cgNextCounter q sigs counter chosen =
      ((mostCommon counter).map Prod.fst).foldl (cgDecStep d)
        (counterDel counter chosen) := by
    rw [cgNextCounter, List.foldl_map]
  constructor
  · rw [hfold]
    exact keysNodup_decFold d _ _ (keysNodup_del counter chosen hnd)
  · intro k hk
    rw [hfold] at hk
    rcases decFold_hasKey_imp d _ _ k hk with h | h
    · exact keys_del_subset counter chosen k (hasKey_iff_mem_keys.mp h)
    · have : ((mostCommon counter).map Prod.fst).Perm
          (counter.map Prod.fst) := (mostCommon_perm counter).map Prod.fst
      exact this.mem_iff.mp h

theorem counter_ne_nil_of_head? {counter : PyCounter} {best : ℕ × ℤ}
    (hbest : (mostCommon counter).head? = some best) : counter ≠ [] := by
  intro h
  rw [h] at hbest
  exact absurd hbest (by simp [mostCommon, sortDescBy])

theorem best_mem_counter {counter : PyCounter} {best : ℕ × ℤ}
    (hbest : (mostCommon counter).head? = some best) : best ∈ counter :=
  (mostCommon_perm counter).mem_iff.mp
    (List.mem_of_mem_head? (by simp [hbest]))

/-! ### C6 -/

/-- C6: in every iteration of `counter_gather`'s greedy loop, the selected
candidate (the head of `most_common()`) carries the largest current
shared-count, with ties going to the candidate stored earliest in the
mapping (the first max-count entry in insertion order); when the best
remaining count meets `n_threshold_hashes` the loop recurses on the
decremented counter, and as soon as it falls below `n_threshold_hashes`
the loop stops without error, returning the partial decomposition
accumulated so far. -/
theorem counter_gather_greedy_selection (q : QueryOps) (sigs : List Sig)
    (src : Option String) (nth thr : ℚ) (fuel : ℕ) (counter : PyCounter)
    (match_size : ℚ) (res : List SearchResult) (hms : nth ≤ match_size)
    (best : ℕ × ℤ) (hbest : (mostCommon counter).head? = some best) :
    (∀ p ∈ counter, p.2 ≤ best.2) ∧
    (counter.filter (fun p => decide (p.2 = best.2))).head? = some best ∧
    ((best.2 : ℚ) < nth →
      cgLoop q sigs src nth thr (fuel + 1) counter match_size res = res) ∧
    (nth ≤ (best.2 : ℚ) →
      cgLoop q sigs src nth thr (fuel + 1) counter match_size res =
        cgLoop q sigs src nth thr fuel
          (cgNextCounter q sigs counter best.1) (best.2 : ℚ)
          (cgEmit q sigs src thr res best.1)) := by
  have hne : counter ≠ [] := counter_ne_nil_of_head? hbest
  have hhead := sortDescBy_head (fun p : ℕ × ℤ => p.2) hbest
  refine ⟨hhead.1, hhead.2, ?_, ?_⟩
  · intro hlt
    rw [cgLoop, if_pos ⟨hne, hms⟩, hbest]
    dsimp only
    rw [if_neg (not_le.mpr hlt)]
  · intro hge
    rw [cgLoop, if_pos ⟨hne, hms⟩, hbest]
    dsimp only
    rw [if_pos hge]

/-- Witness for C6 at the concrete first iteration of `counter_gather` on
`exQ` over `[sigA, sigB]`. -/
theorem counter_gather_greedy_selection_witness :
    (mostCommon [((0 : ℕ), (10 : ℤ)), (1, 7)]).head? = some (0, 10) ∧
    ((1 : ℕ), (7 : ℤ)).2 ≤ ((0 : ℕ), (10 : ℤ)).2 ∧
    ([((0 : ℕ), (10 : ℤ)), (1, 7)].filter
      (fun p => decide (p.2 = 10))).head? = some (0, 10) ∧
    cgLoop exQ [sigA, sigB] none 0 0 3 [(0, 10), (1, 7)] 0 [] =
      cgLoop exQ [sigA, sigB] none 0 0 2
        (cgNextCounter exQ [sigA, sigB] [(0, 10), (1, 7)] 0) 10
        (cgEmit exQ [sigA, sigB] none 0 [] 0) :=
  ⟨rfl,
   (counter_gather_greedy_selection exQ [sigA, sigB] none 0 0 2
      [(0, 10), (1, 7)] 0 [] (by decide) (0, 10) rfl).1 (1, 7) (by decide),
   (counter_gather_greedy_selection exQ [sigA, sigB] none 0 0 2
      [(0, 10), (1, 7)] 0 [] (by decide) (0, 10) rfl).2.1,
   (counter_gather_greedy_selection exQ [sigA, sigB] none 0 0 2
      [(0, 10), (1, 7)] 0 [] (by decide) (0, 10) rfl).2.2.2 (by decide)⟩

/-! ### C7 -/

/-- Counterexample to C7 (as stated): on the concrete first iteration of
`counter_gather` over `[sigA, sigB]` (counts 10 and 7, overlap 3,
self-overlap 10) the chosen candidate 0 is *not* removed from the mapping —
the decrement loop re-inserts it with count `0 - 10 = -10` — and the
mapping's size does not decrease (2 before, 2 after) even though the loop
continues (the best remaining count 4 still meets the threshold 0, and the
run emits a second result afterwards). -/
theorem counter_gather_iteration_counterexample :
    cgNextCounter exQ [sigA, sigB] [(0, 10), (1, 7)] 0 = [(1, 4), (0, -10)] ∧
    hasKey (cgNextCounter exQ [sigA, sigB] [(0, 10), (1, 7)] 0) 0 = true ∧
    (cgNextCounter exQ [sigA, sigB] [(0, 10), (1, 7)] 0).length =
      ([((0 : ℕ), (10 : ℤ)), (1, 7)]).length ∧
    counterGather exQ [sigA, sigB] none 0 =
      .ok [⟨1, sigA, none⟩, ⟨1, sigB, none⟩] :=
  ⟨by decide, by decide, by decide, rfl⟩

theorem cgNextCounter_length_le (q : QueryOps) (sigs : List Sig)
    (counter : PyCounter) (chosen : ℕ) (hnd : KeysNodup counter) :
    (cgNextCounter q sigs counter chosen).length ≤ counter.length := by
  rcases cgNextCounter_keys q sigs counter chosen hnd with ⟨hndNew, hsub⟩
  set new := cgNextCounter q sigs counter chosen with hnew
  have h1 : (new.map Prod.fst).toFinset.card = new.length := by
    rw [List.toFinset_card_of_nodup hndNew, List.length_map]
  have h2 : (counter.map Prod.fst).toFinset.card = counter.length := by
    rw [List.toFinset_card_of_nodup hnd, List.length_map]
  have hss : (new.map Prod.fst).toFinset ⊆ (counter.map Prod.fst).toFinset := by
    intro k hk
    rw [List.mem_toFinset] at hk
    rw [List.mem_toFinset]
    obtain ⟨p, hp, rfl⟩ := List.mem_map.mp hk
    exact hsub p.1 (counterGet_of_mem hndNew hp).2
  calc new.length = (new.map Prod.fst).toFinset.card := h1.symm
    _ ≤ (counter.map Prod.fst).toFinset.card := Finset.card_le_card hss
    _ = counter.length := h2

/-- One greedy iteration strictly decreases the number of stored candidates
whose count still meets a nonnegative `n_threshold_hashes`: the chosen entry
leaves that set (it is re-inserted with a nonpositive count, and a count of
exactly 0 is dropped), other entries only decrease, and no new entries
appear. -/
theorem cgNextCounter_measure (q : QueryOps) (sigs : List Sig)
    (counter : PyCounter) (hnd : KeysNodup counter) (nth : ℚ) (h0 : 0 ≤ nth)
    (best : ℕ × ℤ) (hbest : (mostCommon counter).head? = some best)
    (hsel : nth ≤ (best.2 : ℚ)) :
    ((cgNextCounter q sigs counter best.1).filter
        (fun p => decide (nth ≤ (p.2 : ℚ)))).length <
      (counter.filter (fun p => decide (nth ≤ (p.2 : ℚ)))).length := by
  have hbmem : best ∈ counter := best_mem_counter hbest
  have hbkey : best.1 ∈ counter.map Prod.fst :=
    List.mem_map_of_mem Prod.fst hbmem
  rcases cgNextCounter_keys q sigs counter best.1 hnd with ⟨hndNew, hkeysub⟩
  rcases cgNextCounter_char q sigs counter best.1 hnd hbkey with
    ⟨hothers, hchosen⟩
  set new := cgNextCounter q sigs counter best.1 with hnewdef
  set P : ℕ × ℤ → Bool := fun p => decide (nth ≤ (p.2 : ℚ)) with hP
  set d : ℕ → ℤ := cgDec q sigs (sigs.getD best.1 default) with hd
  have hdpos : ∀ k, 0 ≤ d k := fun k => Int.ofNat_nonneg _
  -- every key of the filtered new counter is a key of the filtered old
  -- counter different from the chosen one
  have hmain : ∀ k ∈ (new.filter P).map Prod.fst,
      k ∈ (counter.filter P).map Prod.fst ∧ k ≠ best.1 := by
    intro k hk
    obtain ⟨p, hpF, rfl⟩ := List.mem_map.mp hk
    have hpNew : p ∈ new := (List.mem_filter.mp hpF).1
    have hPp : nth ≤ (p.2 : ℚ) := by
      have := (List.mem_filter.mp hpF).2
      rw [hP] at this
      exact of_decide_eq_true this
    have hlook := counterGet_of_mem hndNew hpNew
    by_cases hkb : p.1 = best.1
    · exfalso
      have hKey : hasKey new best.1 = true := hkb ▸ hlook.2
      rw [hchosen.2] at hKey
      have hdne : d best.1 ≠ 0 := of_decide_eq_true hKey
      have hdlt : 0 < d best.1 := lt_of_le_of_ne (hdpos _) (Ne.symm hdne)
      have hval : p.2 = -(d best.1) := by
        rw [← hchosen.1, ← hkb]
        exact hlook.1.symm
      have : (p.2 : ℚ) < 0 := by
        rw [hval]
        push_cast
        exact neg_neg_of_pos (by exact_mod_cast hdlt)
      linarith
    · have hkeyC : p.1 ∈ counter.map Prod.fst := hkeysub p.1 hlook.2
      obtain ⟨p0, hp0C, hp0k⟩ := List.mem_map.mp hkeyC
      have hne0 : p0.1 ≠ best.1 := by rw [hp0k]; exact hkb
      have hchar := hothers p0 hp0C hne0
      have hpv : p.2 = p0.2 - d p0.1 := by
        rw [← hchar.1, hp0k]
        exact hlook.1.symm
      have hle : p.2 ≤ p0.2 := by
        rw [hpv]
        have := hdpos p0.1
        omega
      have hP0 : nth ≤ (p0.2 : ℚ) :=
        le_trans hPp (by exact_mod_cast hle)
      refine ⟨?_, hkb⟩
      rw [← hp0k]
      refine List.mem_map_of_mem Prod.fst (List.mem_filter.mpr ⟨hp0C, ?_⟩)
      rw [hP]
      exact decide_eq_true hP0
  -- cardinality bookkeeping on the key sets
  have hndNewF : ((new.filter P).map Prod.fst).Nodup :=
    ((new.filter_sublist).map Prod.fst).nodup hndNew
  have hndOldF : ((counter.filter P).map Prod.fst).Nodup :=
    ((counter.filter_sublist).map Prod.fst).nodup hnd
  have hbOldF : best.1 ∈ (counter.filter P).map Prod.fst := by
    refine List.mem_map_of_mem Prod.fst (List.mem_filter.mpr ⟨hbmem, ?_⟩)
    rw [hP]
    exact decide_eq_true hsel
  have hsubF : ((new.filter P).map Prod.fst).toFinset ⊆
      (((counter.filter P).map Prod.fst).toFinset).erase best.1 := by
    intro k hk
    rw [List.mem_toFinset] at hk
    rcases hmain k hk with ⟨h1, h2⟩
    exact Finset.mem_erase.mpr ⟨h2, List.mem_toFinset.mpr h1⟩
  have hclen : ((new.filter P).map Prod.fst).toFinset.card =
      (new.filter P).length := by
    rw [List.toFinset_card_of_nodup hndNewF, List.length_map]
  have holen : (((counter.filter P).map Prod.fst).toFinset).card =
      (counter.filter P).length := by
    rw [List.toFinset_card_of_nodup hndOldF, List.length_map]
  have hb : best.1 ∈ ((counter.filter P).map Prod.fst).toFinset :=
    List.mem_toFinset.mpr hbOldF
  have hle := Finset.card_le_card hsubF
  rw [Finset.card_erase_of_mem hb] at hle
  rw [hclen, holen] at hle
  have hpos : 0 < (counter.filter P).length := by
    rw [← holen]
    exact Finset.card_pos.mpr ⟨best.1, hb⟩
  omega

/-- C7 (amended): after each greedy iteration on a counter with pairwise
distinct keys, choosing `best = most_common()[0]` with count
`≥ n_threshold_hashes ≥ 0`: every *other* stored candidate's count has been
decremented by its `count_common` with the chosen match and it stays stored
exactly when the decremented count is nonzero (a count of exactly zero is
dropped); the chosen candidate is *not* simply removed — the decrement loop
re-inserts it with count `-count_common(chosen, chosen)`, so it stays in
the mapping (with a negative count) whenever that self-overlap is nonzero.
Consequently the mapping's size never increases but need not strictly
decrease; what strictly decreases — guaranteeing termination — is the
number of stored candidates whose count still meets `n_threshold_hashes`. -/
theorem counter_gather_iteration_update (q : QueryOps) (sigs : List Sig)
    (counter : PyCounter) (hnd : KeysNodup counter) (nth : ℚ) (h0 : 0 ≤ nth)
    (best : ℕ × ℤ) (hbest : (mostCommon counter).head? = some best)
    (hsel : nth ≤ (best.2 : ℚ)) :
    (∀ p ∈ counter, p.1 ≠ best.1 →
      counterGet (cgNextCounter q sigs counter best.1) p.1 =
        p.2 - cgDec q sigs (sigs.getD best.1 default) p.1 ∧
      hasKey (cgNextCounter q sigs counter best.1) p.1 =
        decide (p.2 - cgDec q sigs (sigs.getD best.1 default) p.1 ≠ 0)) ∧
    (counterGet (cgNextCounter q sigs counter best.1) best.1 =
        -(cgDec q sigs (sigs.getD best.1 default) best.1) ∧
      hasKey (cgNextCounter q sigs counter best.1) best.1 =
        decide (cgDec q sigs (sigs.getD best.1 default) best.1 ≠ 0)) ∧
    (cgNextCounter q sigs counter best.1).length ≤ counter.length ∧
    ((cgNextCounter q sigs counter best.1).filter
        (fun p => decide (nth ≤ (p.2 : ℚ)))).length <
      (counter.filter (fun p => decide (nth ≤ (p.2 : ℚ)))).length := by
  have hbkey : best.1 ∈ counter.map Prod.fst :=
    List.mem_map_of_mem Prod.fst (best_mem_counter hbest)
  rcases cgNextCounter_char q sigs counter best.1 hnd hbkey with ⟨h1, h2⟩
  exact ⟨h1, h2, cgNextCounter_length_le q sigs counter best.1 hnd,
    cgNextCounter_measure q sigs counter hnd nth h0 best hbest hsel⟩

/-- Witness for the amended C7 at the concrete first iteration on
`[sigA, sigB]`: candidate 1 decremented from 7 to 4 and kept, chosen
candidate 0 re-inserted with `-10`, size unchanged at 2, while the number of
threshold-meeting candidates drops from 2 to 1. -/
theorem counter_gather_iteration_update_witness :
    counterGet (cgNextCounter exQ [sigA, sigB] [(0, 10), (1, 7)] 0) 1 = 4 ∧
    counterGet (cgNextCounter exQ [sigA, sigB] [(0, 10), (1, 7)] 0) 0
      = -10 ∧
    hasKey (cgNextCounter exQ [sigA, sigB] [(0, 10), (1, 7)] 0) 0 = true ∧
    (cgNextCounter exQ [sigA, sigB] [(0, 10), (1, 7)] 0).length ≤ 2 ∧
    ((cgNextCounter exQ [sigA, sigB] [(0, 10), (1, 7)] 0).filter
        (fun p => decide ((0 : ℚ) ≤ (p.2 : ℚ)))).length <
      (([((0 : ℕ), (10 : ℤ)), (1, 7)]).filter
        (fun p => decide ((0 : ℚ) ≤ (p.2 : ℚ)))).length := by
  have h := counter_gather_iteration_update exQ [sigA, sigB]
    [(0, 10), (1, 7)] (by decide) 0 (by decide) (0, 10) rfl (by decide)
  refine ⟨?_, h.2.1.1, h.2.1.2.trans (by decide), h.2.2.1, h.2.2.2⟩
  exact (h.1 (1, 7) (by decide) (by decide)).1

/-! ### C8 -/

/-- The provenance re-tagging `MultiIndex` applies to one delegated result:
`best_src = src or filename`. -/
def retagSrc (src : Option String) (r : SearchResult) : SearchResult :=
  ⟨r.score, r.sig, pyOrSource src r.source⟩

/-- The list a sub-index's (base-algorithm) `search` returns under a valid
configuration. -/
def searchAlgOut (q : QueryOps) (t : ℚ) (dc dmc ia : Bool) (idx : SubIndex) :
    List SearchResult :=
  sortDescBy (fun r => r.score)
    (searchMatches (searchScorer q dc dmc ia) t idx.location idx.sigs)

/-- The list a sub-index's (base-algorithm) `gather` returns when the query
is empty or scaled. -/
def gatherAlgOut (q : QueryOps) (idx : SubIndex) (bp : ℚ) :
    List SearchResult :=
  if q.mhLen = 0 then []
  else
    let thr : ℚ :=
      if bp = 0 then 0 else (bp / (q.scaled : ℚ)) / (q.mhLen : ℚ)
    if bp ≠ 0 ∧ 1 < thr then []
    else sortDescBy gatherKey (gatherMatches q idx.location thr idx.sigs)

theorem searchAlg_eq_ok (q : QueryOps) (idx : SubIndex) (t : ℚ)
    (dc dmc ia : Bool) (hflags : (dc && dmc) = false) :
    searchAlg q idx.sigs idx.location (some t) dc dmc ia =
      .ok (searchAlgOut q t dc dmc ia idx) := by
  simp only [searchAlg, searchAlgOut, hflags]
  rw [if_neg (by simp [hflags])]

theorem gatherAlg_eq_ok (q : QueryOps) (idx : SubIndex) (bp : ℚ)
    (hg : q.mhLen = 0 ∨ q.scaled ≠ 0) :
    gatherAlg q idx.sigs idx.location bp = .ok (gatherAlgOut q idx bp) := by
  by_cases h1 : q.mhLen = 0
  · simp only [gatherAlg, gatherAlgOut, if_pos h1]
  · have h2 : q.scaled ≠ 0 := by
      rcases hg with h | h
      · exact absurd h h1
      · exact h
    simp only [gatherAlg, gatherAlgOut, if_neg h1, if_neg h2]
    by_cases h3 : bp ≠ 0 ∧ 1 < (if bp = 0 then (0 : ℚ)
        else (bp / (q.scaled : ℚ)) / (q.mhLen : ℚ))
    · rw [if_pos h3, if_pos h3]
    · rw [if_neg h3, if_neg h3]

theorem multiSearchPool_ok (q : QueryOps) (t : ℚ) (dc dmc ia : Bool)
    (hflags : (dc && dmc) = false) :
    ∀ pairs : List (SubIndex × Option String),
      multiSearchPool q (some t) dc dmc ia pairs =
        .ok (pairs.flatMap fun pr =>
          (searchAlgOut q t dc dmc ia pr.1).map (retagSrc pr.2)) := by
  intro pairs
  induction pairs with
  | nil => rfl
  | cons pr rest ih =>
    obtain ⟨idx, src⟩ := pr
    rw [multiSearchPool, searchAlg_eq_ok q idx t dc dmc ia hflags, ih]
    rw [List.flatMap_cons]
    rfl

theorem multiGatherPool_ok (q : QueryOps) (bp : ℚ)
    (hg : q.mhLen = 0 ∨ q.scaled ≠ 0) :
    ∀ pairs : List (SubIndex × Option String),
      multiGatherPool q bp pairs =
        .ok (pairs.flatMap fun pr =>
          (gatherAlgOut q pr.1 bp).map (retagSrc pr.2)) := by
  intro pairs
  induction pairs with
  | nil => rfl
  | cons pr rest ih =>
    obtain ⟨idx, src⟩ := pr
    rw [multiGatherPool, gatherAlg_eq_ok q idx bp hg, ih]
    rw [List.flatMap_cons]
    rfl

/-- Counterexample to C8 (as stated): a `MultiIndex` whose recorded source
for its single sub-index is the *empty string* — set (non-`None`), but falsy
in Python — does not override the sub-index's reported source: `best_src =
src or filename` keeps the sub-index's `"f.sig"`, while the claim requires
the recorded `""` to be used whenever it is non-`None`. -/
theorem multi_source_override_counterexample :
    multiSearch exQ [⟨[sigA], some "f.sig"⟩] [some ""] (some 1) false false
      false = .ok [⟨1, sigA, some "f.sig"⟩] ∧
    (some "" : Option String) ≠ none ∧
    (some "f.sig" : Option String) ≠ some "" :=
  ⟨rfl, by decide, by decide⟩

/-- C8 (amended): for every `MultiIndex` over parallel sub-index and source
lists, `search` and `gather` delegate to each sub-index in list order and
re-tag each result's source with the recorded source for that sub-index
whenever that source is *truthy* (non-`None` and non-empty), otherwise
keeping the source the sub-index itself reported — a recorded empty-string
source does not override.  The pooled results are re-sorted under the same
ordering rules as the base algorithms (stable descending by score for
`search`, descending by `(containment, fingerprint)` for `gather`). -/
theorem multi_delegate_retag_sort (q : QueryOps) (idxs : List SubIndex)
    (srcs : List (Option String)) (t : ℚ) (dc dmc ia : Bool) (bp : ℚ)
    (hflags : (dc && dmc) = false) (hg : q.mhLen = 0 ∨ q.scaled ≠ 0) :
    multiSearch q idxs srcs (some t) dc dmc ia =
      .ok (sortDescBy (fun r => r.score)
        ((idxs.zip srcs).flatMap fun pr =>
          (searchAlgOut q t dc dmc ia pr.1).map (retagSrc pr.2))) ∧
    multiGather q idxs srcs bp =
      .ok (sortDescBy gatherKey
        ((idxs.zip srcs).flatMap fun pr =>
          (gatherAlgOut q pr.1 bp).map (retagSrc pr.2))) ∧
    (∀ fn : Option String, pyOrSource none fn = fn) ∧
    (∀ fn : Option String, pyOrSource (some "") fn = fn) ∧
    (∀ (s : String) (fn : Option String), s ≠ "" →
      pyOrSource (some s) fn = some s) ∧
    (∀ L, multiSearch q idxs srcs (some t) dc dmc ia = .ok L →
      List.Pairwise (fun a b => b.score ≤ a.score) L) ∧
    (∀ L, multiGather q idxs srcs bp = .ok L →
      List.Pairwise gatherGe L) := by
  have hs : multiSearch q idxs srcs (some t) dc dmc ia =
      .ok (sortDescBy (fun r => r.score)
        ((idxs.zip srcs).flatMap fun pr =>
          (searchAlgOut q t dc dmc ia pr.1).map (retagSrc pr.2))) := by
    rw [multiSearch, multiSearchPool_ok q t dc dmc ia hflags]
  have hgth : multiGather q idxs srcs bp =
      .ok (sortDescBy gatherKey
        ((idxs.zip srcs).flatMap fun pr =>
          (gatherAlgOut q pr.1 bp).map (retagSrc pr.2))) := by
    rw [multiGather, multiGatherPool_ok q bp hg]
  refine ⟨hs, hgth, fun fn => rfl, fun fn => rfl, ?_, ?_, ?_⟩
  · intro s fn hne
    simp [pyOrSource, hne]
  · intro L hL
    rw [hs] at hL
    rw [← Except.ok.inj hL]
    exact sortDescBy_sorted _ _
  · intro L hL
    rw [hgth] at hL
    rw [← Except.ok.inj hL]
    exact pairwise_gatherGe_sortDescBy _

/-- Witness for the amended C8: one sub-index reporting source `"f.sig"`
overridden by the truthy recorded source `"src.sig"`. -/
theorem multi_delegate_retag_sort_witness :
    ((false && false) = false) ∧
    multiSearch exQ [⟨[sigA], some "f.sig"⟩] [some "src.sig"] (some 1) false
      false false =
      .ok (sortDescBy (fun r => r.score)
        (([(⟨[sigA], some "f.sig"⟩ : SubIndex)].zip
            [(some "src.sig" : Option String)]).flatMap fun pr =>
          (searchAlgOut exQ 1 false false false pr.1).map (retagSrc pr.2))) ∧
    multiSearch exQ [⟨[sigA], some "f.sig"⟩] [some "src.sig"] (some 1) false
      false false = .ok [⟨1, sigA, some "src.sig"⟩] :=
  ⟨rfl,
   (multi_delegate_retag_sort exQ [⟨[sigA], some "f.sig"⟩] [some "src.sig"]
      1 false false false 0 rfl (Or.inr (by decide))).1,
   rfl⟩

/-! ### C9 -/

theorem selectLoop_idem (p : SelectParams) :
    ∀ sigs l : List Sig, selectLoop p sigs = .ok l →
      selectLoop p l = .ok l := by
  intro sigs
  induction sigs with
  | nil =>
    intro l h
    simp only [selectLoop] at h
    rw [← Except.ok.inj h]
    rfl
  | cons ss rest ih =>
    intro l h
    rw [selectLoop] at h
    cases hb : select_signature ss p with
    | error e =>
      rw [hb] at h
      simp at h
    | ok b =>
      rw [hb] at h
      cases ht : selectLoop p rest with
      | error e =>
        rw [ht] at h
        simp at h
      | ok tail =>
        rw [ht] at h
        dsimp only at h
        have hl : l = if b then ss :: tail else tail := (Except.ok.inj h).symm
        have htail := ih tail ht
        by_cases hbb : b = true
        · rw [hbb, if_pos rfl] at hl
          subst hl
          rw [selectLoop, hb, htail]
          dsimp only
          rw [hbb]
          rfl
        · rw [if_neg (by simpa using hbb)] at hl
          subst hl
          exact htail

/-- C9: for the backends in the source (`LinearIndex` and
`ZipFileLinearIndex`), calling `select` twice in a row with the same
constraints yields an index whose `signatures()` enumeration equals (in
particular as a multiset) the one obtained after a single `select` call:
`LinearIndex.select` returns the same index again, and
`ZipFileLinearIndex.select` replaces the attached selection dict with the
same dict, so the enumerations coincide. -/
theorem select_idempotent :
    (∀ (idx idx1 : LinearIndex) (p : SelectParams),
      LinearIndex.select idx p = .ok idx1 →
      LinearIndex.select idx1 p = .ok idx1) ∧
    (∀ (idx idx1 idx2 : LinearIndex) (p : SelectParams),
      LinearIndex.select idx p = .ok idx1 →
      LinearIndex.select idx1 p = .ok idx2 →
      (idx2.sigList : Multiset Sig) = (idx1.sigList : Multiset Sig)) ∧
    (∀ (z : ZipFileLinearIndex) (kw : Option SelectParams),
      ((z.select kw).select kw).signatures = (z.select kw).signatures) := by
  have hlin : ∀ (idx idx1 : LinearIndex) (p : SelectParams),
      LinearIndex.select idx p = .ok idx1 →
      LinearIndex.select idx1 p = .ok idx1 := by
    intro idx idx1 p h
    rw [LinearIndex.select] at h
    cases hsl : selectLoop p idx.sigList with
    | error e =>
      rw [hsl] at h
      simp at h
    | ok siglist =>
      rw [hsl] at h
      dsimp only at h
      have h1 : idx1 = ⟨siglist, idx.location⟩ := (Except.ok.inj h).symm
      subst h1
      rw [LinearIndex.select]
      rw [show (⟨siglist, idx.location⟩ : LinearIndex).sigList = siglist
        from rfl]
      rw [selectLoop_idem p idx.sigList siglist hsl]
  refine ⟨hlin, ?_, ?_⟩
  · intro idx idx1 idx2 p h1 h2
    have := hlin idx idx1 p h1
    rw [this] at h2
    rw [← Except.ok.inj h2]
  · intro z kw
    rfl

/-- The selection constraints `ksize=31, scaled=1` (no moltype/num
constraint, no containment). -/
def exSelP : SelectParams := ⟨31, 0, 1, 0, false⟩

/-- A concrete `LinearIndex` with a filename. -/
def exLin : LinearIndex := ⟨[sigA, sigB], some "x.sig"⟩

/-- A concrete `ZipFileLinearIndex` over one `.sig` entry. -/
def exZip : ZipFileLinearIndex :=
  ⟨⟨some "z.zip", [⟨"a.sig", [sigA]⟩]⟩, none, false⟩

/-- Witness for C9: both backends at concrete inputs. -/
theorem select_idempotent_witness :
    LinearIndex.select exLin exSelP = .ok exLin ∧
    LinearIndex.select exLin exSelP = .ok exLin ∧
    ((exZip.select (some exSelP)).select (some exSelP)).signatures =
      (exZip.select (some exSelP)).signatures :=
  ⟨rfl,
   (select_idempotent).1 exLin exLin exSelP rfl,
   (select_idempotent).2.2 exZip (some exSelP)⟩

/-! ### C10 -/

theorem mem_cgEmit {q : QueryOps} {sigs : List Sig} {src : Option String}
    {thr : ℚ} {res : List SearchResult} {chosen : ℕ} {r : SearchResult}
    (h : r ∈ cgEmit q sigs src thr res chosen) :
    r ∈ res ∨ r.source = src := by
  unfold cgEmit at h
  dsimp only at h
  by_cases hc : q.mh_contained_by (sigs.getD chosen default) ≠ 0 ∧
      thr ≤ q.mh_contained_by (sigs.getD chosen default)
  · rw [if_pos hc] at h
    rcases List.mem_append.mp h with h' | h'
    · exact Or.inl h'
    · rcases List.mem_singleton.mp h' with rfl
      exact Or.inr rfl
  · rw [if_neg hc] at h
    exact Or.inl h

theorem cgLoop_source (q : QueryOps) (sigs : List Sig) (src : Option String)
    (nth thr : ℚ) :
    ∀ (fuel : ℕ) (counter : PyCounter) (ms : ℚ) (res : List SearchResult)
      (r : SearchResult),
      r ∈ cgLoop q sigs src nth thr fuel counter ms res →
      r ∈ res ∨ r.source = src := by
  intro fuel
  induction fuel with
  | zero => intro counter ms res r h; exact Or.inl h
  | succ n ih =>
    intro counter ms res r h
    rw [cgLoop] at h
    by_cases hc : counter ≠ [] ∧ nth ≤ ms
    · rw [if_pos hc] at h
      cases hb : (mostCommon counter).head? with
      | none =>
        rw [hb] at h
        exact Or.inl h
      | some best =>
        rw [hb] at h
        dsimp only at h
        by_cases hge : nth ≤ (best.2 : ℚ)
        · rw [if_pos hge] at h
          rcases ih _ _ _ r h with h' | h'
          · exact mem_cgEmit h'
          · exact Or.inr h'
        · rw [if_neg hge] at h
          exact Or.inl h
    · rw [if_neg hc] at h
      exact Or.inl h

theorem counterGather_source {q : QueryOps} {sigs : List Sig}
    {fn : Option String} {bp : ℚ} {L : List SearchResult}
    (h : counterGather q sigs fn bp = .ok L) : ∀ r ∈ L, r.source = fn := by
  intro r hr
  unfold counterGather at h
  dsimp only at h
  split_ifs at h <;>
    first
      | (rw [← Except.ok.inj h] at hr
         exact absurd hr (List.not_mem_nil r))
      | (rw [← Except.ok.inj h] at hr
         rcases cgLoop_source q sigs fn _ _ _ _ _ _ r
            (mem_sortDescBy.mp hr) with h' | h'
         · exact absurd h' (List.not_mem_nil r)
         · exact h')
      | exact absurd h (by simp)

theorem gatherAlg_source {q : QueryOps} {sigs : List Sig}
    {loc : Option String} {bp : ℚ} {L : List SearchResult}
    (h : gatherAlg q sigs loc bp = .ok L) : ∀ r ∈ L, r.source = loc := by
  intro r hr
  unfold gatherAlg at h
  dsimp only at h
  split_ifs at h <;>
    first
      | (rw [← Except.ok.inj h] at hr
         exact absurd hr (List.not_mem_nil r))
      | (rw [← Except.ok.inj h] at hr
         rcases mem_gatherMatches.mp (mem_sortDescBy.mp hr) with
           ⟨ss, _, _, rfl⟩
         rfl)
      | exact absurd h (by simp)

/-- C10: `counter_gather` on a `LinearIndex` tags the source of every
emitted result as `None` — even when the index was constructed with a
filename — because the base algorithm reads a `filename` attribute while
`LinearIndex` stores its provenance under `location`; `search` and `gather`
on the same index report the index's `location` as the source. -/
theorem linear_counter_gather_source_mismatch (idx : LinearIndex)
    (q : QueryOps) (bp t : ℚ) (dc dmc ia : Bool) :
    (∀ L, idx.counter_gather q bp = .ok L → ∀ r ∈ L, r.source = none) ∧
    (∀ L, idx.gather q bp = .ok L → ∀ r ∈ L, r.source = idx.location) ∧
    (∀ L, idx.search q (some t) dc dmc ia = .ok L →
      ∀ r ∈ L, r.source = idx.location) := by
  refine ⟨?_, ?_, ?_⟩
  · intro L hL
    exact counterGather_source hL
  · intro L hL
    exact gatherAlg_source hL
  · intro L hL r hr
    have hEq := searchAlg_ok hL
    subst hEq
    rcases mem_searchMatches.mp (mem_sortDescBy.mp hr) with ⟨ss, _, _, rfl⟩
    rfl

/-- The output of `gather` on `exLin` (constructed with filename
`"x.sig"`). -/
def exGatherOutX : List SearchResult :=
  [⟨1, sigA, some "x.sig"⟩, ⟨1, sigB, some "x.sig"⟩]

/-- Witness for C10: on the same `LinearIndex` built with filename
`"x.sig"`, `counter_gather` emits `none` sources while `gather` emits
`some "x.sig"`. -/
theorem linear_counter_gather_source_mismatch_witness :
    exLin.counter_gather exQ 0 = .ok exCounterGatherOut ∧
    exLin.gather exQ 0 = .ok exGatherOutX ∧
    (⟨1, sigA, none⟩ : SearchResult).source = none ∧
    (⟨1, sigA, some "x.sig"⟩ : SearchResult).source = exLin.location :=
  ⟨rfl, rfl,
   (linear_counter_gather_source_mismatch exLin exQ 0 1 false false
      false).1 exCounterGatherOut rfl ⟨1, sigA, none⟩ (by decide),
   (linear_counter_gather_source_mismatch exLin exQ 0 1 false false
      false).2.1 exGatherOutX rfl ⟨1, sigA, some "x.sig"⟩
      (List.mem_cons_self _ _)⟩

end Sourmash
